import Mathlib

/-!
Verification of the gdbstub target-abstraction core.

The repository's `src` tree declares the contracts (the `Registers`, `Arch`
and `SingleThread` traits); the concrete behaviour of a conforming
implementation is modelled here from the specification, faithful to its
words.  Register values are natural numbers, bytes are naturals below 256,
and the wire stream of `gdb_serialize` is a list of `Option Nat`: `some b`
is a concrete byte handed to the `write_byte` callback, `none` is the
explicit "unknown/uncollected" marker.
-/

namespace GdbStub

/-- Modelled from the spec: an architecture descriptor.  The spec's
`ArchDescriptor` fixes, at build time, the pointer width in bytes and the
register-file layout (the byte width of each register, in the order the
architecture's external `target.xml` specification mandates).  The concrete
layouts are not under `src`; only the `Arch` trait declaring them is. -/
structure ArchSpec where
  usizeBytes : Nat
  widths : List Nat
deriving Repr, DecidableEq

/-- Total register byte count declared by the architecture. -/
def ArchSpec.totalWidth (a : ArchSpec) : Nat := a.widths.sum

/-- A register file: one field per register, in architecture order.
`none` marks a field whose value is unknown/uncollected. -/
abbrev RegisterFile := List (Option Nat)

/-- Big-endian byte encoding of `v` in exactly `w` bytes. -/
def beBytes : Nat → Nat → List Nat
  | 0, _ => []
  | w + 1, v => beBytes w (v / 256) ++ [v % 256]

/-- Decode a big-endian byte list back to a natural number. -/
def fromBeBytes (l : List Nat) : Nat :=
  l.foldl (fun acc b => acc * 256 + b) 0

/-- Modelled from the spec: serialization of one register field of byte
width `w`.  A known value is emitted as its `w` bytes; an unknown field is
emitted as `w` explicit unknown markers (`None` passed to `write_byte`),
never as zero bytes. -/
def serializeField (w : Nat) : Option Nat → List (Option Nat)
  | some v => (beBytes w v).map some
  | none => List.replicate w (none : Option Nat)

/-- Serialize the fields against the layout, field by field. -/
def serializeFields : List Nat → RegisterFile → List (Option Nat)
  | w :: ws, f :: fs => serializeField w f ++ serializeFields ws fs
  | _, _ => []

/-- Modelled from the spec: `Registers::gdb_serialize`.  The trait in
`src/src/arch/traits.rs` only declares the method; the spec says it
produces the "byte-or-unknown" sequence in architecture-mandated register
order, each element being exactly one `write_byte` invocation. -/
def gdb_serialize (a : ArchSpec) (r : RegisterFile) : List (Option Nat) :=
  serializeFields a.widths r

/-- Run a `write_byte` callback, modelled as a state transformer, over the
serialized stream: one application per emitted element. -/
def writeByteRun {σ : Type} (write : σ → Option Nat → σ)
    (stream : List (Option Nat)) (st : σ) : σ :=
  stream.foldl write st

/-- Split a byte buffer positionally into per-register chunks. -/
def splitWidths : List Nat → List Nat → List (List Nat)
  | w :: ws, bs => bs.take w :: splitWidths ws (bs.drop w)
  | [], _ => []

/-- Modelled from the spec: `Registers::gdb_deserialize`.  The buffer
length must equal the architecture's total register width; on mismatch it
fails with the `MalformedInput` condition (`Except.error ()`) and the file
is handed back untouched; otherwise every field is populated positionally
from its chunk of the buffer. -/
def gdb_deserialize (a : ArchSpec) (file : RegisterFile) (bytes : List Nat) :
    RegisterFile × Except Unit Unit :=
  if bytes.length = a.totalWidth then
    ((splitWidths a.widths bytes).map (fun c => some (fromBeBytes c)), Except.ok ())
  else
    (file, Except.error ())

/-- A register file matches the architecture layout: one field per declared
register, and every known value fits in its register's byte width. -/
def fieldFits (w : Nat) : Option Nat → Bool
  | none => true
  | some v => v < 256 ^ w

def wellFormed (a : ArchSpec) (r : RegisterFile) : Bool :=
  a.widths.length = r.length &&
    (List.zip a.widths r).all fun p => fieldFits p.1 p.2

/-- The fresh register file the protocol engine constructs before a read or
a deserialization: every field carries the well-defined default value 0. -/
def defaultFile (a : ArchSpec) : RegisterFile :=
  a.widths.map fun _ => some 0

lemma beBytes_length (w v : Nat) : (beBytes w v).length = w := by
  induction w generalizing v with
  | zero => rfl
  | succ w ih => simp [beBytes, ih]

lemma serializeField_length (w : Nat) (f : Option Nat) :
    (serializeField w f).length = w := by
  cases f <;> simp [serializeField, beBytes_length]

lemma serializeFields_length (ws : List Nat) (fs : RegisterFile)
    (h : ws.length = fs.length) :
    (serializeFields ws fs).length = ws.sum := by
  induction ws generalizing fs with
  | nil => cases fs <;> simp [serializeFields]
  | cons w ws ih =>
    cases fs with
    | nil => simp at h
    | cons f fs =>
      simp only [List.length_cons, Nat.succ.injEq] at h
      simp [serializeFields, serializeField_length, ih fs h, List.sum_cons]

lemma foldl_count {α : Type} (l : List α) (n : Nat) :
    l.foldl (fun k _ => k + 1) n = n + l.length := by
  induction l generalizing n with
  | nil => simp
  | cons x xs ih => simp [List.foldl, ih]; omega

/-- C2. Fixed width: serializing any layout-conforming register file, no
matter its values and no matter which fields are unknown, invokes the
`write_byte` callback exactly the architecture's declared total register
byte count times. -/
theorem serialize_fixed_width (a : ArchSpec) (r : RegisterFile)
    (h : wellFormed a r = true) :
    writeByteRun (fun k _ => k + 1) (gdb_serialize a r) 0 = a.totalWidth ∧
      (gdb_serialize a r).length = a.totalWidth := by
  have hlen : a.widths.length = r.length := by
    simp [wellFormed] at h
    exact h.1
  have hl : (gdb_serialize a r).length = a.totalWidth :=
    serializeFields_length a.widths r hlen
  refine ⟨?_, hl⟩
  simp [writeByteRun, foldl_count, hl]

/-- Witness for C2: a 32-bit-style layout with one known and one unknown
register emits exactly the declared 8 bytes worth of callback calls. -/
theorem serialize_fixed_width_witness :
    writeByteRun (fun k _ => k + 1)
        (gdb_serialize ⟨4, [4, 4]⟩ [some 5, none]) 0 = (ArchSpec.mk 4 [4, 4]).totalWidth ∧
      (gdb_serialize ⟨4, [4, 4]⟩ [some 5, none]).length = (ArchSpec.mk 4 [4, 4]).totalWidth :=
  serialize_fixed_width ⟨4, [4, 4]⟩ [some 5, none] (by decide)

/-- The protocol engine's view of the emitted stream as a concrete byte
buffer: it succeeds only when no unknown marker is present, since markers
are rendered as an unencoded placeholder, not as a literal byte value. -/
def collectBytes : List (Option Nat) → Option (List Nat)
  | [] => some []
  | none :: _ => none
  | some b :: rest => (collectBytes rest).map (fun bs => b :: bs)

lemma collectBytes_append (l₁ l₂ : List (Option Nat)) :
    collectBytes (l₁ ++ l₂) =
      (collectBytes l₁).bind fun b₁ => (collectBytes l₂).map fun b₂ => b₁ ++ b₂ := by
  induction l₁ with
  | nil => simp [collectBytes]
  | cons x xs ih =>
    cases x with
    | none => simp [collectBytes]
    | some b =>
      simp only [List.cons_append, collectBytes, List.append_eq]
      rw [ih]
      cases collectBytes xs <;> cases collectBytes l₂ <;> simp

lemma collectBytes_map_some (l : List Nat) : collectBytes (l.map some) = some l := by
  induction l with
  | nil => rfl
  | cons b bs ih => simp [collectBytes, ih]

lemma collectBytes_eq_none_iff (l : List (Option Nat)) :
    collectBytes l = none ↔ (none : Option Nat) ∈ l := by
  induction l with
  | nil => simp [collectBytes]
  | cons x xs ih =>
    cases x with
    | none => simp [collectBytes]
    | some b =>
      simp only [collectBytes, List.mem_cons, ← ih]
      cases collectBytes xs <;> simp

lemma collectBytes_length (l : List (Option Nat)) (bs : List Nat)
    (h : collectBytes l = some bs) : bs.length = l.length := by
  induction l generalizing bs with
  | nil => simp [collectBytes] at h; simp [← h]
  | cons x xs ih =>
    cases x with
    | none => simp [collectBytes] at h
    | some b =>
      simp only [collectBytes] at h
      cases hx : collectBytes xs with
      | none => rw [hx] at h; simp at h
      | some bs' =>
        rw [hx] at h
        simp only [Option.map_some', Option.some.injEq] at h
        subst h
        simp [ih bs' hx]

lemma foldl_beBytes (w v acc : Nat) :
    (beBytes w v).foldl (fun a b => a * 256 + b) acc = acc * 256 ^ w + v % 256 ^ w := by
  induction w generalizing v acc with
  | zero => simp [beBytes, Nat.mod_one]
  | succ w ih =>
    have hmod : v % 256 ^ (w + 1) = v % 256 + 256 * (v / 256 % 256 ^ w) := by
      rw [pow_succ, Nat.mul_comm, Nat.mod_mul]
    rw [beBytes, List.foldl_append, ih]
    simp only [List.foldl]
    rw [hmod, pow_succ]
    ring

lemma fromBeBytes_beBytes (w v : Nat) (h : v < 256 ^ w) :
    fromBeBytes (beBytes w v) = v := by
  simp [fromBeBytes, foldl_beBytes, Nat.mod_eq_of_lt h]

lemma serializeFields_no_none (ws : List Nat) (fs : RegisterFile)
    (hnu : ∀ f ∈ fs, f ≠ none) :
    (none : Option Nat) ∉ serializeFields ws fs := by
  induction ws generalizing fs with
  | nil => cases fs <;> simp [serializeFields]
  | cons w ws ih =>
    cases fs with
    | nil => simp [serializeFields]
    | cons f fs =>
      have hf : f ≠ none := hnu f (by simp)
      cases f with
      | none => exact absurd rfl hf
      | some v =>
        simp only [serializeFields, List.mem_append, serializeField]
        rintro (hmem | hmem)
        · rcases List.mem_map.mp hmem with ⟨b, _, hb⟩
          exact Option.noConfusion hb
        · exact ih fs (fun g hg => hnu g (List.mem_cons_of_mem _ hg)) hmem

lemma deserialize_serialize_core (ws : List Nat) (fs : RegisterFile)
    (hlen : ws.length = fs.length)
    (hfit : ∀ p ∈ List.zip ws fs, fieldFits p.1 p.2 = true)
    (hnu : ∀ f ∈ fs, f ≠ none)
    (bs : List Nat) (hbs : collectBytes (serializeFields ws fs) = some bs) :
    (splitWidths ws bs).map (fun c => some (fromBeBytes c)) = fs := by
  induction ws generalizing fs bs with
  | nil =>
    cases fs with
    | nil =>
      simp only [serializeFields, collectBytes, Option.some.injEq] at hbs
      subst hbs
      rfl
    | cons f fs => simp at hlen
  | cons w ws ih =>
    cases fs with
    | nil => simp at hlen
    | cons f fs =>
      have hf : f ≠ none := hnu f (by simp)
      cases f with
      | none => exact absurd rfl hf
      | some v =>
        rw [serializeFields, serializeField, collectBytes_append,
          collectBytes_map_some, Option.some_bind] at hbs
        cases hrest : collectBytes (serializeFields ws fs) with
        | none => rw [hrest] at hbs; simp at hbs
        | some bs' =>
          rw [hrest] at hbs
          simp only [Option.map_some', Option.some.injEq] at hbs
          subst hbs
          have htake : (beBytes w v ++ bs').take w = beBytes w v :=
            List.take_left' (beBytes_length w v)
          have hdrop : (beBytes w v ++ bs').drop w = bs' :=
            List.drop_left' (beBytes_length w v)
          have hvfit : v < 256 ^ w := by
            have := hfit (w, some v) (by rw [List.zip_cons_cons]; simp)
            simpa [fieldFits] using this
          have hlen' : ws.length = fs.length := by simpa using hlen
          have hfit' : ∀ p ∈ List.zip ws fs, fieldFits p.1 p.2 = true := by
            intro p hp
            exact hfit p (by rw [List.zip_cons_cons]; exact List.mem_cons_of_mem _ hp)
          have hnu' : ∀ g ∈ fs, g ≠ none :=
            fun g hg => hnu g (List.mem_cons_of_mem _ hg)
          simp only [splitWidths, htake, hdrop, List.map_cons,
            fromBeBytes_beBytes w v hvfit]
          rw [ih fs hlen' hfit' hnu' bs' hrest]

/-- C1. Round-trip: serializing a layout-conforming register file with no
unknown field yields a stream the engine can render as concrete bytes, and
deserializing those bytes into a fresh (default) register file reproduces
the original file exactly. -/
theorem serialize_deserialize_roundtrip (a : ArchSpec) (r : RegisterFile)
    (hwf : wellFormed a r = true) (hnu : r.all Option.isSome = true) :
    ∃ bs, collectBytes (gdb_serialize a r) = some bs ∧
      gdb_deserialize a (defaultFile a) bs = (r, Except.ok ()) := by
  rw [wellFormed, Bool.and_eq_true] at hwf
  obtain ⟨hwf1, hwf2⟩ := hwf
  have hlen : a.widths.length = r.length := of_decide_eq_true hwf1
  have hfit : ∀ p ∈ List.zip a.widths r, fieldFits p.1 p.2 = true :=
    List.all_eq_true.mp hwf2
  have hnone : ∀ f ∈ r, f ≠ none := by
    intro f hf hcontra
    subst hcontra
    simpa using List.all_eq_true.mp hnu none hf
  have hmem : (none : Option Nat) ∉ gdb_serialize a r :=
    serializeFields_no_none a.widths r hnone
  cases hbs : collectBytes (gdb_serialize a r) with
  | none => exact absurd ((collectBytes_eq_none_iff _).mp hbs) hmem
  | some bs =>
    refine ⟨bs, rfl, ?_⟩
    have hblen : bs.length = a.totalWidth := by
      rw [collectBytes_length _ bs hbs]
      exact serializeFields_length a.widths r hlen
    simp only [gdb_deserialize, hblen, if_pos rfl]
    rw [deserialize_serialize_core a.widths r hlen hfit hnone bs hbs]
    simp

/-- Witness for C1: a two-register layout (2 and 1 bytes wide) with known
values round-trips through serialize and deserialize. -/
theorem serialize_deserialize_roundtrip_witness :
    ∃ bs, collectBytes (gdb_serialize ⟨4, [2, 1]⟩ [some 258, some 7]) = some bs ∧
      gdb_deserialize ⟨4, [2, 1]⟩ (defaultFile ⟨4, [2, 1]⟩) bs =
        ([some 258, some 7], Except.ok ()) :=
  serialize_deserialize_roundtrip ⟨4, [2, 1]⟩ [some 258, some 7]
    (by decide) (by decide)

lemma serializeFields_unknown (i : Nat) (ws : List Nat) (fs : RegisterFile)
    (hlen : ws.length = fs.length) (hi : i < fs.length)
    (hu : fs.get ⟨i, hi⟩ = none) :
    ((serializeFields ws fs).drop ((ws.take i).sum)).take (ws.getD i 0)
      = List.replicate (ws.getD i 0) (none : Option Nat) := by
  induction i generalizing ws fs with
  | zero =>
    cases fs with
    | nil => simp at hi
    | cons f fs =>
      cases ws with
      | nil => simp at hlen
      | cons w ws =>
        have hf : f = none := hu
        subst hf
        simp only [List.take_zero, List.sum_nil, List.drop_zero, serializeFields,
          serializeField, List.getD_cons_zero]
        exact List.take_left' (by simp)
  | succ i ih =>
    cases fs with
    | nil => simp at hi
    | cons f fs =>
      cases ws with
      | nil => simp at hlen
      | cons w ws =>
        have hlen' : ws.length = fs.length := by simpa using hlen
        have hi' : i < fs.length := by simpa using hi
        have hu' : fs.get ⟨i, hi'⟩ = none := hu
        simp only [List.take_succ_cons, List.sum_cons, List.getD_cons_succ,
          serializeFields]
        rw [show w + (ws.take i).sum
              = (serializeField w f).length + (ws.take i).sum by
            rw [serializeField_length],
          List.drop_append]
        exact ih ws fs hlen' hi' hu'

/-- C3. Unknown preservation: for a register file whose `i`-th field is
unknown, the serialized stream carries the explicit unknown marker (`none`
handed to `write_byte`) for every byte of that field — never a concrete
zero byte — and the engine can never decode such a stream into concrete
bytes to hand to `gdb_deserialize`, so the marker is never turned into a
concrete value. -/
theorem unknown_preservation (a : ArchSpec) (r : RegisterFile) (i : Nat)
    (hwf : wellFormed a r = true) (hi : i < r.length)
    (hu : r.get ⟨i, hi⟩ = none) (hpos : 0 < a.widths.getD i 0) :
    ((gdb_serialize a r).drop ((a.widths.take i).sum)).take (a.widths.getD i 0)
        = List.replicate (a.widths.getD i 0) (none : Option Nat) ∧
      collectBytes (gdb_serialize a r) = none := by
  rw [wellFormed, Bool.and_eq_true] at hwf
  have hlen : a.widths.length = r.length := of_decide_eq_true hwf.1
  have hslice := serializeFields_unknown i a.widths r hlen hi hu
  refine ⟨hslice, ?_⟩
  rw [collectBytes_eq_none_iff]
  have hmem : (none : Option Nat)
      ∈ ((gdb_serialize a r).drop ((a.widths.take i).sum)).take (a.widths.getD i 0) := by
    rw [show gdb_serialize a r = serializeFields a.widths r from rfl, hslice]
    exact List.mem_replicate.mpr ⟨Nat.pos_iff_ne_zero.mp hpos, rfl⟩
  exact List.mem_of_mem_drop (List.mem_of_mem_take hmem)

/-- Witness for C3: a two-register 4-byte layout with the second register
unknown serializes that register as four unknown markers. -/
theorem unknown_preservation_witness :
    ((gdb_serialize ⟨4, [4, 4]⟩ [some 3, none]).drop
          (((ArchSpec.mk 4 [4, 4]).widths.take 1).sum)).take
          ((ArchSpec.mk 4 [4, 4]).widths.getD 1 0)
        = List.replicate ((ArchSpec.mk 4 [4, 4]).widths.getD 1 0) (none : Option Nat) ∧
      collectBytes (gdb_serialize ⟨4, [4, 4]⟩ [some 3, none]) = none :=
  unknown_preservation ⟨4, [4, 4]⟩ [some 3, none] 1 (by decide) (by decide)
    (by decide) (by decide)

/-- C5. Deserialization failure condition: `gdb_deserialize` reports the
`MalformedInput` condition exactly when the buffer length differs from the
architecture's total register width, and succeeds exactly on a buffer of
the declared width.  (In this byte-positional model a chunk of a field's
exact byte width is always representable in the field, so length mismatch
is the only failure source.) -/
theorem deserialize_malformed_iff (a : ArchSpec) (file : RegisterFile)
    (bytes : List Nat) :
    ((gdb_deserialize a file bytes).2 = Except.error ()
        ↔ bytes.length ≠ a.totalWidth) ∧
      ((gdb_deserialize a file bytes).2 = Except.ok ()
        ↔ bytes.length = a.totalWidth) := by
  by_cases h : bytes.length = a.totalWidth <;> simp [gdb_deserialize, h]

/-- C6. Deserialization atomicity: a buffer 3 bytes short of the declared
register width makes `gdb_deserialize` fail with `MalformedInput` while
handing back the register file exactly as it was — no field is modified. -/
theorem deserialize_short_buffer_atomic (a : ArchSpec) (file : RegisterFile)
    (bytes : List Nat) (h : bytes.length + 3 = a.totalWidth) :
    gdb_deserialize a file bytes = (file, Except.error ()) := by
  have hne : bytes.length ≠ a.totalWidth := by omega
  simp [gdb_deserialize, hne]

/-- Witness for C6: a 5-byte buffer against an 8-byte register width fails
and leaves the populated file untouched. -/
theorem deserialize_short_buffer_atomic_witness :
    gdb_deserialize ⟨4, [4, 4]⟩ [some 9, none] [1, 2, 3, 4, 5]
      = ([some 9, none], Except.error ()) :=
  deserialize_short_buffer_atomic ⟨4, [4, 4]⟩ [some 9, none] [1, 2, 3, 4, 5]
    (by decide)

/-- Modelled from the spec: a single-threaded target's memory.  `mem addr
= none` marks an inaccessible address (MMU fault, unmapped page); `some b`
is the byte stored at an accessible address.  The `SingleThread` trait in
`src/src/target/base/singlethread.rs` only declares `read_addrs` and
`write_addrs`; the behaviour of a conforming target is taken from the
spec's contract. -/
structure MemTarget where
  mem : Nat → Option Nat

/-- Every address of `[start, start+len)` is accessible. -/
def rangeAccessible (t : MemTarget) (start len : Nat) : Bool :=
  (List.range len).all fun i => (t.mem (start + i)).isSome

/-- Modelled from the spec: `SingleThread::write_addrs`.  An accessible
range is written and `Ok(true)` returned; an inaccessible range is the
non-fatal failure `Ok(false)` and memory is untouched.  `Err` is reserved
for fatal target failures, which a healthy target never raises. -/
def write_addrs (t : MemTarget) (start : Nat) (data : List Nat) :
    MemTarget × Except Unit Bool :=
  if rangeAccessible t start data.length then
    (⟨fun addr =>
        if start ≤ addr ∧ addr < start + data.length then
          some (data.getD (addr - start) 0)
        else t.mem addr⟩,
      Except.ok true)
  else (t, Except.ok false)

/-- Modelled from the spec: `SingleThread::read_addrs`.  An accessible
range returns `Ok(true)` with the bytes read; an inaccessible range is the
non-fatal `Ok(false)`. -/
def read_addrs (t : MemTarget) (start len : Nat) :
    MemTarget × Except Unit (Bool × List Nat) :=
  if rangeAccessible t start len then
    (t, Except.ok (true, (List.range len).map fun i => (t.mem (start + i)).getD 0))
  else (t, Except.ok (false, []))

/-- C4. Non-fatal memory isolation: a `write_addrs` aimed at an
inaccessible range returns `Ok(false)` — not `Err` — and the target stays
usable: a subsequent `read_addrs` on an accessible range still returns
`Ok(true)` with the data. -/
theorem write_addrs_nonfatal_isolation (t : MemTarget) (wstart : Nat)
    (data : List Nat) (rstart rlen : Nat)
    (hw : rangeAccessible t wstart data.length = false)
    (hr : rangeAccessible t rstart rlen = true) :
    (write_addrs t wstart data).2 = Except.ok false ∧
      (read_addrs (write_addrs t wstart data).1 rstart rlen).2
        = Except.ok (true, (List.range rlen).map fun i => (t.mem (rstart + i)).getD 0) := by
  simp [write_addrs, hw, read_addrs, hr]

/-- A small concrete target: sixteen accessible bytes at the bottom of the
address space, everything above inaccessible. -/
def demoMem : MemTarget :=
  ⟨fun a => if a < 16 then some (a + 1) else none⟩

/-- Witness for C4: writing at `0xFFFF0000` on `demoMem` fails non-fatally
and a read at address 0 right after still succeeds. -/
theorem write_addrs_nonfatal_isolation_witness :
    (write_addrs demoMem 4294901760 [1, 2, 3]).2 = Except.ok false ∧
      (read_addrs (write_addrs demoMem 4294901760 [1, 2, 3]).1 0 4).2
        = Except.ok (true, (List.range 4).map fun i => (demoMem.mem (0 + i)).getD 0) :=
  write_addrs_nonfatal_isolation demoMem 4294901760 [1, 2, 3] 0 4
    (by decide) (by decide)

/-- Modelled from the spec: `ResumeAction`, how the target is resumed. -/
inductive ResumeAction where
  | singleStep
  | singleStepWithSignal (sig : Nat)
  | cont
  | contWithSignal (sig : Nat)
deriving Repr, DecidableEq

/-- Modelled from the spec: `StopReason`, why the target stopped;
`gdbInterrupt` is the interrupt-class reason reported when the
`check_gdb_interrupt` callback fires. -/
inductive StopReason where
  | doneStep
  | gdbInterrupt
  | swBreak
  | signalDelivered (sig : Nat)
  | exited (code : Nat)
  | terminated (sig : Nat)
deriving Repr, DecidableEq

/-- Modelled from the spec: the debuggee driven by the execution loop — a
deterministic step function plus a breakpoint predicate on its state. -/
structure Debuggee (σ : Type) where
  stepFn : σ → σ
  hitBreakpoint : σ → Bool

/-- Modelled from the spec: the implementer's execution loop for a
`Continue`.  Each iteration first polls `check_gdb_interrupt` (counting
invocations) — a true result ends the running phase immediately with the
interrupt stop reason — then stops at a breakpoint if one is hit, and
otherwise executes one step of the debuggee.  `fuel` bounds the modelled
running phase. -/
def runLoop {σ : Type} (d : Debuggee σ) (check : Nat → Bool) :
    Nat → Nat → σ → Option (StopReason × σ)
  | 0, _, _ => none
  | fuel + 1, n, s =>
    if check n then some (StopReason.gdbInterrupt, s)
    else if d.hitBreakpoint s then some (StopReason.swBreak, s)
    else runLoop d check fuel (n + 1) (d.stepFn s)

/-- Modelled from the spec: `SingleThread::resume`.  A step action executes
one instruction and reports completion (or a breakpoint landed on); a
continue action runs the execution loop. -/
def resume {σ : Type} (d : Debuggee σ) (action : ResumeAction)
    (check : Nat → Bool) (fuel : Nat) (s : σ) :
    Except Unit (StopReason × σ) :=
  match action with
  | ResumeAction.singleStep | ResumeAction.singleStepWithSignal _ =>
    if d.hitBreakpoint (d.stepFn s) then Except.ok (StopReason.swBreak, d.stepFn s)
    else Except.ok (StopReason.doneStep, d.stepFn s)
  | ResumeAction.cont | ResumeAction.contWithSignal _ =>
    match runLoop d check fuel 0 s with
    | some r => Except.ok r
    | none => Except.error ()

lemma runLoop_interrupt {σ : Type} (d : Debuggee σ) (check : Nat → Bool)
    (k : Nat) :
    ∀ (fuel n : Nat) (s : σ), k < fuel → check (n + k) = true →
      (∀ j, j < k → check (n + j) = false) →
      (∀ j, j < k → d.hitBreakpoint (d.stepFn^[j] s) = false) →
      runLoop d check fuel n s
        = some (StopReason.gdbInterrupt, d.stepFn^[k] s) := by
  induction k with
  | zero =>
    intro fuel n s hfuel hk _ _
    cases fuel with
    | zero => omega
    | succ fuel =>
      simp only [runLoop]
      rw [show n + 0 = n from rfl] at hk
      rw [hk]
      simp
  | succ k ih =>
    intro fuel n s hfuel hk hmin hnb
    cases fuel with
    | zero => omega
    | succ fuel =>
      have h0 : check n = false := by
        have := hmin 0 (Nat.succ_pos k)
        simpa using this
      have hb0 : d.hitBreakpoint s = false := by
        have := hnb 0 (Nat.succ_pos k)
        simpa using this
      simp only [runLoop, h0, hb0, Bool.false_eq_true, if_false]
      have hrec := ih fuel (n + 1) (d.stepFn s) (by omega)
        (by rw [show n + 1 + k = n + (k + 1) by omega]; exact hk)
        (fun j hj => by
          rw [show n + 1 + j = n + (j + 1) by omega]
          exact hmin (j + 1) (by omega))
        (fun j hj => by
          rw [← Function.iterate_succ_apply]
          exact hnb (j + 1) (by omega))
      rw [hrec, ← Function.iterate_succ_apply]

/-- C7. Interrupt responsiveness: during `resume(Continue, check)`, if the
interrupt callback first returns true at its `k`-th invocation and the
debuggee has not reached a natural stopping point by then (no breakpoint
hit), `resume` returns at once with the interrupt-class stop reason. -/
theorem resume_interrupt_responsive {σ : Type} (d : Debuggee σ)
    (check : Nat → Bool) (s : σ) (k fuel : Nat) (hfuel : k < fuel)
    (hk : check k = true) (hmin : ∀ j, j < k → check j = false)
    (hnb : ∀ j, j < k → d.hitBreakpoint (d.stepFn^[j] s) = false) :
    resume d ResumeAction.cont check fuel s
      = Except.ok (StopReason.gdbInterrupt, d.stepFn^[k] s) := by
  have h := runLoop_interrupt d check k fuel 0 s hfuel (by simpa using hk)
    (fun j hj => by simpa using hmin j hj) hnb
  simp [resume, h]

/-- Witness for C7: a debuggee that never naturally stops, interrupted at
the callback's 3rd invocation, stops with `gdbInterrupt` after 3 steps. -/
theorem resume_interrupt_responsive_witness :
    resume (⟨fun n => n + 1, fun _ => false⟩ : Debuggee Nat) ResumeAction.cont
        (fun n => n == 3) 10 (0 : Nat)
      = Except.ok (StopReason.gdbInterrupt, (fun n : Nat => n + 1)^[3] 0) :=
  resume_interrupt_responsive ⟨fun n => n + 1, fun _ => false⟩ (fun n => n == 3)
    0 3 10 (by omega) (by decide)
    (by intro j hj; simp; omega)
    (fun j hj => rfl)

/-- The `Arch` trait of `src/src/arch/traits.rs`: the architecture's
pointer width and register layout, plus the optional constant
`target_description_xml` document.  The trait supplies the default body
`None`, so an implementation that does not override the method returns
nothing. -/
structure Arch where
  spec : ArchSpec
  target_description_xml : Option String := none

/-- C8. Target description lookup: `target_description_xml` is a pure
constant lookup with no failure mode — an `Arch` built without overriding
it returns `none`, and any `Arch` returns either nothing or its constant
description string. -/
theorem target_description_xml_default (s : ArchSpec) :
    ({ spec := s } : Arch).target_description_xml = none ∧
      ∀ a : Arch, a.target_description_xml = none ∨
        ∃ d, a.target_description_xml = some d := by
  refine ⟨rfl, fun a => ?_⟩
  cases h : a.target_description_xml
  · exact Or.inl rfl
  · exact Or.inr ⟨_, rfl⟩

/-- The `Registers` trait of `src/src/arch/traits.rs`: the `Default`
supertrait is modelled by extending `Inhabited`, so every register-file
type usable with an architecture carries a well-defined default value. -/
class Registers (R : Type) extends Inhabited R where
  serialize : R → List (Option Nat)
  deserialize : R → List Nat → R × Except Unit Unit

/-- The register-file type of a given architecture. -/
structure RegFile (a : ArchSpec) where
  fields : RegisterFile

instance instRegistersRegFile (a : ArchSpec) : Registers (RegFile a) where
  default := ⟨defaultFile a⟩
  serialize r := gdb_serialize a r.fields
  deserialize r bs :=
    (RegFile.mk (gdb_deserialize a r.fields bs).1, (gdb_deserialize a r.fields bs).2)

/-- C9. Default constructibility: the register-file type of any
architecture has a default value — the fresh file the protocol engine
builds before `read_registers` or `gdb_deserialize` — which is
layout-conforming and gives every field the well-defined value 0. -/
theorem registers_default_constructible (a : ArchSpec) :
    (default : RegFile a).fields = defaultFile a ∧
      wellFormed a (default : RegFile a).fields = true ∧
      ∀ f ∈ (default : RegFile a).fields, f = some 0 := by
  refine ⟨rfl, ?_, ?_⟩
  · rw [wellFormed, Bool.and_eq_true]
    refine ⟨decide_eq_true ?_, ?_⟩
    · show a.widths.length = (defaultFile a).length
      simp [defaultFile]
    · rw [List.all_eq_true]
      rintro ⟨w, f⟩ hp
      have h2 := (List.of_mem_zip hp).2
      have h2' : f ∈ a.widths.map fun _ => some 0 := h2
      rcases List.mem_map.mp h2' with ⟨u, _, hu⟩
      rw [← hu]
      simp only [fieldFits, decide_eq_true_eq]
      exact pow_pos (by norm_num) w
  · intro f hf
    have hf' : f ∈ a.widths.map fun _ => some 0 := hf
    rcases List.mem_map.mp hf' with ⟨u, _, hu⟩
    exact hu.symm

/-- A debugging-session snapshot: the register file held by the caller
plus the state the `write_byte` callback threads through serialization. -/
structure Session (σ : Type) where
  regs : RegisterFile
  writer : σ

/-- Running `gdb_serialize` over a session: the callback state advances by
one `write_byte` application per emitted element; the register file is
taken by shared reference (`&self` in `src/src/arch/traits.rs`), so the
session keeps it as is. -/
def gdb_serialize_run {σ : Type} (a : ArchSpec) (write : σ → Option Nat → σ)
    (sess : Session σ) : Session σ :=
  { regs := sess.regs
    writer := writeByteRun write (gdb_serialize a sess.regs) sess.writer }

/-- C10. Serialization never modifies the register file: whatever the
`write_byte` callback does to its own state, after `gdb_serialize` the
session holds the register file unchanged, while the callback state has
consumed exactly the emitted stream. -/
theorem serialize_preserves_regs {σ : Type} (a : ArchSpec)
    (write : σ → Option Nat → σ) (sess : Session σ) :
    (gdb_serialize_run a write sess).regs = sess.regs ∧
      (gdb_serialize_run a write sess).writer
        = writeByteRun write (gdb_serialize a sess.regs) sess.writer :=
  ⟨rfl, rfl⟩

end GdbStub
